import Mathlib

/-!
Verification of the optimization-model construction logic in the amlc-2021
repository (three gurobipy scripts: a transportation LP, an offshore
cable-layout MIP, and a workforce-scheduling MIP).

The scripts build declarative models: decision variables indexed by node or
edge names, linear constraints generated in bulk, and linear objectives.  We
embed each model shallowly: an assignment of rational values to the decision
variables is a plain function, each generated constraint family becomes a
`Prop` over such assignments, and each objective becomes a rational-valued
function.  Gurobi tupledict wildcard sums such as `v.sum(i, star)` become
sums over the key list filtered on the fixed component.
-/

namespace AMLC

/-- A pair of names, the key type of the gurobipy tupledicts used by all
three scripts (origin/destination, supply/demand, worker/shift). -/
abbrev Conn := String × String

/-- Value of the gurobipy wildcard sum `v.sum(i, star)`: the sum of `v`
over the keys whose first component equals `i`. -/
def tdSumFrom (keys : List Conn) (v : Conn → ℚ) (i : String) : ℚ :=
  ((keys.filter (fun c => c.1 = i)).map v).sum

/-- Value of the gurobipy wildcard sum `v.sum(star, j)`: the sum of `v`
over the keys whose second component equals `j`. -/
def tdSumTo (keys : List Conn) (v : Conn → ℚ) (j : String) : ℚ :=
  ((keys.filter (fun c => c.2 = j)).map v).sum

/-! ### Transportation model (src/transportation/simple.py) -/

/-- The distribution centers (supply nodes). -/
def DC : List String := ["seattle", "san-diego"]

/-- The fulfillment centers (demand nodes). -/
def FC : List String := ["new-york", "chicago", "topeka"]

/-- Supply capacity of each distribution center. -/
def Capacity : String → ℚ
  | "seattle" => 350
  | "san-diego" => 600
  | _ => 0

/-- Demand requirement of each demand node. -/
def Demand : String → ℚ
  | "new-york" => 325
  | "chicago" => 300
  | "topeka" => 275
  | _ => 0

/-- Distance table for the six supply-demand pairs. -/
def Distances : Conn → ℚ
  | ("seattle", "new-york") => 2.5
  | ("seattle", "chicago") => 1.7
  | ("seattle", "topeka") => 1.8
  | ("san-diego", "new-york") => 2.5
  | ("san-diego", "chicago") => 1.8
  | ("san-diego", "topeka") => 1.4
  | _ => 0

/-- Price per unit distance and unit flow. -/
def Price : ℚ := 90

/-- The keys of the flow variables `x = model.addVars(DC, FC)`:
all supply-demand pairs, in product order. -/
def transPairs : List Conn := DC ×ˢ FC

/-- The objective `Price * x.prod(Distances)`: price times the sum over all
pairs of flow times distance. -/
def transObjective (x : Conn → ℚ) : ℚ :=
  Price * ((transPairs.map (fun p => x p * Distances p)).sum)

/-- A feasible point of the transportation model: nonnegative flows
(default variable lower bound 0), the `Capacity` constraint family
`x.sum(i, star) <= Capacity[i]` and the `Demand` constraint family
`x.sum(star, j) >= Demand[j]`. -/
def transFeasible (x : Conn → ℚ) : Prop :=
  (∀ p ∈ transPairs, 0 ≤ x p) ∧
  (∀ i ∈ DC, tdSumFrom transPairs x i ≤ Capacity i) ∧
  (∀ j ∈ FC, Demand j ≤ tdSumTo transPairs x j)

/-- A concrete flow assignment for the transportation instance. -/
def x5 : Conn → ℚ
  | ("seattle", "new-york") => 325
  | ("san-diego", "chicago") => 300
  | ("san-diego", "topeka") => 275
  | _ => 0

lemma x5_feasible : transFeasible x5 := by
  refine ⟨?_, ?_, ?_⟩
  · intro p hp
    obtain ⟨a, b⟩ := p
    simp +decide [transPairs, DC, FC] at hp
    rcases hp with ⟨rfl, rfl⟩ | ⟨rfl, rfl⟩ | ⟨rfl, rfl⟩ | ⟨rfl, rfl⟩ | ⟨rfl, rfl⟩ | ⟨rfl, rfl⟩ <;>
      decide
  · intro i hi
    simp +decide [DC] at hi
    rcases hi with rfl | rfl <;>
      simp +decide [tdSumFrom, transPairs, DC, FC, x5, Capacity]
    norm_num
  · intro j hj
    simp +decide [FC] at hj
    rcases hj with rfl | rfl | rfl <;>
      simp +decide [tdSumTo, transPairs, DC, FC, x5, Demand]

/-- C5: every feasible point of the transportation model sends at most 350
units out of seattle and at most 600 out of san-diego, routes at least
325/300/275 units into new-york/chicago/topeka, and has objective value
equal to the sum over the six supply-demand pairs of flow times unit cost,
the unit cost of a pair being `Price` (90) times its distance. -/
theorem trans_feasible_properties (x : Conn → ℚ) (h : transFeasible x) :
    (x ("seattle", "new-york") + x ("seattle", "chicago") + x ("seattle", "topeka") ≤ 350 ∧
      x ("san-diego", "new-york") + x ("san-diego", "chicago") + x ("san-diego", "topeka") ≤ 600) ∧
    (325 ≤ x ("seattle", "new-york") + x ("san-diego", "new-york") ∧
      300 ≤ x ("seattle", "chicago") + x ("san-diego", "chicago") ∧
      275 ≤ x ("seattle", "topeka") + x ("san-diego", "topeka")) ∧
    transObjective x =
      x ("seattle", "new-york") * (Price * 2.5) + x ("seattle", "chicago") * (Price * 1.7) +
        x ("seattle", "topeka") * (Price * 1.8) + x ("san-diego", "new-york") * (Price * 2.5) +
        x ("san-diego", "chicago") * (Price * 1.8) + x ("san-diego", "topeka") * (Price * 1.4) := by
  obtain ⟨-, hcap, hdem⟩ := h
  have hs := hcap "seattle" (by simp [DC])
  have hd := hcap "san-diego" (by simp [DC])
  have hn := hdem "new-york" (by simp [FC])
  have hc := hdem "chicago" (by simp [FC])
  have ht := hdem "topeka" (by simp [FC])
  simp +decide [tdSumFrom, transPairs, DC, FC, Capacity] at hs hd
  simp +decide [tdSumTo, transPairs, DC, FC, Demand] at hn hc ht
  refine ⟨⟨by linarith, by linarith⟩, ⟨by linarith, by linarith, by linarith⟩, ?_⟩
  simp +decide [transObjective, transPairs, DC, FC, Distances, Price]
  ring

/-- C5 witness: the concrete assignment `x5` satisfies the hypotheses of
`trans_feasible_properties` and hence its conclusion. -/
theorem trans_feasible_properties_inst :
    transFeasible x5 ∧
    ((x5 ("seattle", "new-york") + x5 ("seattle", "chicago") + x5 ("seattle", "topeka") ≤ 350 ∧
      x5 ("san-diego", "new-york") + x5 ("san-diego", "chicago") + x5 ("san-diego", "topeka") ≤ 600) ∧
    (325 ≤ x5 ("seattle", "new-york") + x5 ("san-diego", "new-york") ∧
      300 ≤ x5 ("seattle", "chicago") + x5 ("san-diego", "chicago") ∧
      275 ≤ x5 ("seattle", "topeka") + x5 ("san-diego", "topeka")) ∧
    transObjective x5 =
      x5 ("seattle", "new-york") * (Price * 2.5) + x5 ("seattle", "chicago") * (Price * 1.7) +
        x5 ("seattle", "topeka") * (Price * 1.8) + x5 ("san-diego", "new-york") * (Price * 2.5) +
        x5 ("san-diego", "chicago") * (Price * 1.8) + x5 ("san-diego", "topeka") * (Price * 1.4)) :=
  ⟨x5_feasible, trans_feasible_properties x5 x5_feasible⟩

/-- C6: the concrete transportation instance (capacities 350/600, demands
325/300/275) admits a feasible flow, and every feasible flow has total cost
equal to the sum over the six pairs of distance times price times flow. -/
theorem trans_instance_feasible_and_cost :
    transFeasible x5 ∧
    ∀ x : Conn → ℚ, transFeasible x →
      transObjective x =
        Distances ("seattle", "new-york") * Price * x ("seattle", "new-york") +
          Distances ("seattle", "chicago") * Price * x ("seattle", "chicago") +
          Distances ("seattle", "topeka") * Price * x ("seattle", "topeka") +
          Distances ("san-diego", "new-york") * Price * x ("san-diego", "new-york") +
          Distances ("san-diego", "chicago") * Price * x ("san-diego", "chicago") +
          Distances ("san-diego", "topeka") * Price * x ("san-diego", "topeka") := by
  refine ⟨x5_feasible, fun x _ => ?_⟩
  simp +decide [transObjective, transPairs, DC, FC, Distances, Price]
  ring

/-- C6 witness: instantiating the cost identity at the concrete feasible
flow `x5`. -/
theorem trans_instance_feasible_and_cost_inst :
    transFeasible x5 ∧
    transObjective x5 =
      Distances ("seattle", "new-york") * Price * x5 ("seattle", "new-york") +
        Distances ("seattle", "chicago") * Price * x5 ("seattle", "chicago") +
        Distances ("seattle", "topeka") * Price * x5 ("seattle", "topeka") +
        Distances ("san-diego", "new-york") * Price * x5 ("san-diego", "new-york") +
        Distances ("san-diego", "chicago") * Price * x5 ("san-diego", "chicago") +
        Distances ("san-diego", "topeka") * Price * x5 ("san-diego", "topeka") :=
  ⟨trans_instance_feasible_and_cost.1,
    trans_instance_feasible_and_cost.2 x5 trans_instance_feasible_and_cost.1⟩

/-! ### Offshore cable-layout model (src/offshore/offshore.py)

The script reads node names and Easting/Northing coordinates from a
spreadsheet and computes Euclidean distances in km; the model itself only
consumes the list of names and the distance of each candidate connection,
so the embedding is parameterized by the name list `names` and a distance
function `dist`. -/

/-- Cable cost per km, defined in the script (and, notably, never applied
when the objective is built). -/
def price_per_km : ℚ := 1000000

/-- Amount of MW that a cable can carry. -/
def capacity : ℚ := 65

/-- Power produced at each turbine node. -/
def produced : ℚ := 8

/-- The candidate connections
`[(o, d) for o in names for d in names if o != d and o != 'Plat']`:
ordered pairs of node names with distinct endpoints whose origin is not the
platform, in comprehension order. -/
def connections (names : List String) : List Conn :=
  (names ×ˢ names).filter (fun c => c.1 ≠ c.2 ∧ c.1 ≠ "Plat")

/-- The binary vtype of the `install` variables: in a feasible point each
takes value 0 or 1. -/
def binaryInstall (names : List String) (x : Conn → ℚ) : Prop :=
  ∀ c ∈ connections names, x c = 0 ∨ x c = 1

/-- Default lower bound 0 of the continuous `flow` variables. -/
def nonnegFlow (names : List String) (f : Conn → ℚ) : Prop :=
  ∀ c ∈ connections names, 0 ≤ f c

/-- The `All connected` constraint family:
`x.sum(i, star) == 1` for every name `i`. -/
def allConnected (names : List String) (x : Conn → ℚ) : Prop :=
  ∀ i ∈ names, tdSumFrom (connections names) x i = 1

/-- The `Flow` constraint family:
`f.sum(i, star) == f.sum(star, i) + produced` for every name other than
the platform. -/
def flowConservation (names : List String) (f : Conn → ℚ) : Prop :=
  ∀ i ∈ names, i ≠ "Plat" →
    tdSumFrom (connections names) f i = tdSumTo (connections names) f i + produced

/-- The `Semi-continuous variable` constraint family:
`f[c] <= capacity * x[c]` for every candidate connection. -/
def semiContinuousLink (names : List String) (x f : Conn → ℚ) : Prop :=
  ∀ c ∈ connections names, f c ≤ capacity * x c

/-- The `test` constraint family: `x[c] == 0` whenever the connection is at
least 10 km long. -/
def distanceTest (names : List String) (dist : Conn → ℚ) (x : Conn → ℚ) : Prop :=
  ∀ c ∈ connections names, 10 ≤ dist c → x c = 0

/-- The objective `x.prod(distances)`: the sum over candidate connections
of install variable times distance (in km). -/
def offshoreObjective (names : List String) (dist : Conn → ℚ) (x : Conn → ℚ) : ℚ :=
  ((connections names).map (fun c => x c * dist c)).sum

/-- A point satisfying every constraint family of the offshore model,
variable domains included. -/
def offshoreFeasible (names : List String) (dist : Conn → ℚ) (x f : Conn → ℚ) : Prop :=
  binaryInstall names x ∧ nonnegFlow names f ∧ allConnected names x ∧
    flowConservation names f ∧ semiContinuousLink names x f ∧ distanceTest names dist x

/-- A point satisfying every constraint family of the offshore model other
than `All connected` (which no point can satisfy once the platform is among
the nodes). -/
def offshoreFlowFeasible (names : List String) (dist : Conn → ℚ) (x f : Conn → ℚ) : Prop :=
  binaryInstall names x ∧ nonnegFlow names f ∧ flowConservation names f ∧
    semiContinuousLink names x f ∧ distanceTest names dist x

/-- C4: whenever the node set contains 'Plat', no candidate connection
originates at 'Plat', so the `All connected` constraint generated for
'Plat' equates an empty sum with 1 and the whole model is infeasible, for
every distance function and every assignment. -/
theorem offshore_model_infeasible (names : List String) (h : "Plat" ∈ names) :
    (connections names).filter (fun c => c.1 = "Plat") = [] ∧
      ∀ (dist : Conn → ℚ) (x f : Conn → ℚ), ¬ offshoreFeasible names dist x f := by
  have hnil : (connections names).filter (fun c => c.1 = "Plat") = [] := by
    rw [List.filter_eq_nil_iff]
    intro c hc
    rw [connections, List.mem_filter] at hc
    have h2 := hc.2
    simp only [decide_eq_true_eq] at h2 ⊢
    exact h2.2
  refine ⟨hnil, fun dist x f hfeas => ?_⟩
  obtain ⟨-, -, hall, -, -, -⟩ := hfeas
  have h1 := hall "Plat" h
  rw [tdSumFrom, hnil] at h1
  norm_num at h1

/-- C4 witness: the infeasibility theorem instantiated at a two-node list
containing 'Plat'. -/
theorem offshore_model_infeasible_inst :
    "Plat" ∈ ["T1", "Plat"] ∧
      ((connections ["T1", "Plat"]).filter (fun c => c.1 = "Plat") = [] ∧
        ∀ (dist : Conn → ℚ) (x f : Conn → ℚ), ¬ offshoreFeasible ["T1", "Plat"] dist x f) :=
  ⟨by decide, offshore_model_infeasible ["T1", "Plat"] (by decide)⟩

/-- A constant distance function (5 km everywhere) for concrete instances. -/
def offDist : Conn → ℚ := fun _ => 5

/-- A concrete install assignment: every candidate connection installed. -/
def offX : Conn → ℚ := fun _ => 1

/-- A concrete flow assignment: 8 MW on every candidate connection. -/
def offF : Conn → ℚ := fun _ => 8

lemma offshore_point_flow_feasible :
    offshoreFlowFeasible ["T1", "Plat"] offDist offX offF := by
  have hconn : connections ["T1", "Plat"] = [("T1", "Plat")] := by decide
  refine ⟨?_, ?_, ?_, ?_, ?_⟩
  · intro c _; right; rfl
  · intro c _; norm_num [offF]
  · intro i hi hip
    simp +decide [List.mem_cons] at hi
    rcases hi with rfl | rfl
    · simp +decide [tdSumFrom, tdSumTo, hconn, offF, produced]
    · exact absurd rfl hip
  · intro c _; norm_num [offF, offX, capacity]
  · intro c _ hd; exfalso; norm_num [offDist] at hd

/-- C8: in every point satisfying the satisfiable constraint families of
the offshore model, each candidate connection carries at most 65 times its
install variable, carries nonzero flow only if installed, and an installed
connection carries at most 65 MW. -/
theorem semicontinuous_flow_link (names : List String) (dist : Conn → ℚ) (x f : Conn → ℚ)
    (h : offshoreFlowFeasible names dist x f) :
    ∀ c ∈ connections names,
      f c ≤ 65 * x c ∧ (f c ≠ 0 → x c = 1) ∧ (x c = 1 → f c ≤ 65) := by
  obtain ⟨hbin, hnn, -, hsemi, -⟩ := h
  intro c hc
  have hb := hbin c hc
  have hn := hnn c hc
  have hs := hsemi c hc
  rw [capacity] at hs
  refine ⟨hs, ?_, ?_⟩
  · intro hf0
    rcases hb with h0 | h1
    · refine absurd (le_antisymm ?_ hn) hf0
      rw [h0] at hs
      linarith
    · exact h1
  · intro h1
    rw [h1] at hs
    linarith

/-- C8 witness: the linkage properties at a concrete flow-feasible point of
a two-node instance. -/
theorem semicontinuous_flow_link_inst :
    offshoreFlowFeasible ["T1", "Plat"] offDist offX offF ∧
      (offF ("T1", "Plat") ≤ 65 * offX ("T1", "Plat") ∧
        (offF ("T1", "Plat") ≠ 0 → offX ("T1", "Plat") = 1) ∧
        (offX ("T1", "Plat") = 1 → offF ("T1", "Plat") ≤ 65)) :=
  ⟨offshore_point_flow_feasible,
    semicontinuous_flow_link _ _ _ _ offshore_point_flow_feasible ("T1", "Plat") (by decide)⟩

/-- The flow-conservation property in the direction the spec states it:
inflow equals outflow plus local production at every non-platform node. -/
def inflowConservationClaim : Prop :=
  ∀ (names : List String) (dist : Conn → ℚ) (x f : Conn → ℚ),
    offshoreFlowFeasible names dist x f →
      ∀ i ∈ names, i ≠ "Plat" →
        tdSumTo (connections names) f i = tdSumFrom (connections names) f i + produced

/-- C1 counterexample: the spec's inflow-oriented conservation law fails at
a concrete flow-feasible point of a two-node instance, where the turbine
node has inflow 0 but outflow 8. -/
theorem inflow_conservation_claim_false : ¬ inflowConservationClaim := by
  intro h
  have h1 := h ["T1", "Plat"] offDist offX offF offshore_point_flow_feasible "T1"
    (by decide) (by decide)
  have hconn : connections ["T1", "Plat"] = [("T1", "Plat")] := by decide
  rw [tdSumTo, tdSumFrom, hconn] at h1
  simp +decide [offF, produced] at h1
  norm_num at h1

lemma filter_eq_single {r : List String} {i : String} (hrd : r.Nodup) (hir : i ∈ r) :
    r.filter (fun d => d = i) = [i] := by
  induction r with
  | nil => cases hir
  | cons a r ih =>
    obtain ⟨hna, hnd⟩ := List.nodup_cons.mp hrd
    by_cases hai : a = i
    · subst hai
      rw [List.filter_cons_of_pos (by simp)]
      have hnil : r.filter (fun d => d = a) = [] := by
        rw [List.filter_eq_nil_iff]
        intro d hd
        simp only [decide_eq_true_eq]
        intro he
        exact hna (he ▸ hd)
      rw [hnil]
    · have hir' : i ∈ r := by
        rcases List.mem_cons.mp hir with h | h
        · exact absurd h.symm hai
        · exact h
      rw [List.filter_cons_of_neg (by simp [hai])]
      exact ih hnd hir'

lemma block_fst_nil (r : List String) (a i : String) (hai : ¬ a = i) :
    ((r.map (fun b => (a, b))).filter (fun c => c.1 ≠ c.2 ∧ c.1 ≠ "Plat")).filter
        (fun c => c.1 = i) = [] := by
  rw [List.filter_eq_nil_iff]
  intro c hc
  obtain ⟨b, hb, rfl⟩ := List.mem_map.mp (List.mem_filter.mp hc).1
  simpa using hai

lemma block_fst_eq (r : List String) (a : String) (hap : ¬ a = "Plat") :
    ((r.map (fun b => (a, b))).filter (fun c => c.1 ≠ c.2 ∧ c.1 ≠ "Plat")).filter
        (fun c => c.1 = a) = (r.filter (fun d => ¬ a = d)).map (fun d => (a, d)) := by
  induction r with
  | nil => rfl
  | cons b r ih =>
    rw [List.map_cons]
    by_cases hab : a = b
    · rw [List.filter_cons_of_neg (by simp [hab]), ih,
        List.filter_cons_of_neg (by simp [hab])]
    · rw [List.filter_cons_of_pos (by simp [hab, hap]),
        List.filter_cons_of_pos (by simp), ih,
        List.filter_cons_of_pos (by simp [hab]), List.map_cons]

lemma fst_nil_of_not_mem (r : List String) (i : String) :
    ∀ l : List String, i ∉ l →
      ((l ×ˢ r).filter (fun c => c.1 ≠ c.2 ∧ c.1 ≠ "Plat")).filter (fun c => c.1 = i)
        = [] := by
  intro l hil
  rw [List.filter_eq_nil_iff]
  intro c hc
  obtain ⟨o, d⟩ := c
  have hmem := List.mem_product.mp (List.mem_filter.mp hc).1
  simp only [decide_eq_true_eq]
  intro he
  exact hil (he ▸ hmem.1)

lemma product_filter_fst (r : List String) (i : String) (hip : i ≠ "Plat") :
    ∀ l : List String, l.Nodup →
      ((l ×ˢ r).filter (fun c => c.1 ≠ c.2 ∧ c.1 ≠ "Plat")).filter (fun c => c.1 = i)
        = if i ∈ l then (r.filter (fun d => ¬ i = d)).map (fun d => (i, d)) else [] := by
  intro l
  induction l with
  | nil => simp
  | cons a l ih =>
    intro hnd
    obtain ⟨hna, hnd'⟩ := List.nodup_cons.mp hnd
    rw [List.product_cons, List.filter_append, List.filter_append]
    by_cases hai : a = i
    · subst hai
      rw [block_fst_eq r a hip, fst_nil_of_not_mem r a l hna, List.append_nil,
        if_pos (List.mem_cons_self a l)]
    · rw [block_fst_nil r a i hai, List.nil_append, ih hnd']
      have hia : ¬ i = a := fun h => hai h.symm
      by_cases him : i ∈ l
      · rw [if_pos him, if_pos (List.mem_cons_of_mem a him)]
      · rw [if_neg him, if_neg (by simp [List.mem_cons, hia, him])]

lemma block_snd_nil (r : List String) (a i : String) (h : a = i ∨ a = "Plat") :
    ((r.map (fun b => (a, b))).filter (fun c => c.1 ≠ c.2 ∧ c.1 ≠ "Plat")).filter
        (fun c => c.2 = i) = [] := by
  rw [List.filter_eq_nil_iff]
  intro c hc
  have hf := List.mem_filter.mp hc
  obtain ⟨b, hb, rfl⟩ := List.mem_map.mp hf.1
  have hP : a ≠ b ∧ a ≠ "Plat" := by simpa using hf.2
  simp only [decide_eq_true_eq]
  intro he
  rcases h with h | h
  · exact hP.1 (by rw [h, he])
  · exact hP.2 h

lemma block_snd_not_mem (r : List String) (a i : String) (hir : i ∉ r) :
    ((r.map (fun b => (a, b))).filter (fun c => c.1 ≠ c.2 ∧ c.1 ≠ "Plat")).filter
        (fun c => c.2 = i) = [] := by
  rw [List.filter_eq_nil_iff]
  intro c hc
  obtain ⟨b, hb, rfl⟩ := List.mem_map.mp (List.mem_filter.mp hc).1
  simp only [decide_eq_true_eq]
  intro he
  exact hir (he ▸ hb)

lemma block_snd_single (r : List String) (a i : String) (ha1 : ¬ a = i)
    (ha2 : ¬ a = "Plat") (hrd : r.Nodup) (hir : i ∈ r) :
    ((r.map (fun b => (a, b))).filter (fun c => c.1 ≠ c.2 ∧ c.1 ≠ "Plat")).filter
        (fun c => c.2 = i) = [(a, i)] := by
  induction r with
  | nil => cases hir
  | cons b r ih =>
    obtain ⟨hnb, hnd⟩ := List.nodup_cons.mp hrd
    rw [List.map_cons]
    by_cases hbi : b = i
    · subst hbi
      rw [List.filter_cons_of_pos (by simp [ha1, ha2]),
        List.filter_cons_of_pos (by simp), block_snd_not_mem r a b hnb]
    · have hir' : i ∈ r := by
        rcases List.mem_cons.mp hir with h | h
        · exact absurd h.symm hbi
        · exact h
      by_cases hP : a = b
      · rw [List.filter_cons_of_neg (by simp [hP])]
        exact ih hnd hir'
      · rw [List.filter_cons_of_pos (by simp [hP, ha2]),
          List.filter_cons_of_neg (by simp [hbi])]
        exact ih hnd hir'

lemma product_filter_snd (r : List String) (i : String) (hrd : r.Nodup) (hir : i ∈ r) :
    ∀ l : List String,
      ((l ×ˢ r).filter (fun c => c.1 ≠ c.2 ∧ c.1 ≠ "Plat")).filter (fun c => c.2 = i)
        = (l.filter (fun o => ¬ o = i ∧ ¬ o = "Plat")).map (fun o => (o, i)) := by
  intro l
  induction l with
  | nil => simp
  | cons a l ih =>
    rw [List.product_cons, List.filter_append, List.filter_append, ih]
    by_cases hq : ¬ a = i ∧ ¬ a = "Plat"
    · rw [block_snd_single r a i hq.1 hq.2 hrd hir,
        List.filter_cons_of_pos (by simpa using hq), List.map_cons, List.singleton_append]
    · have h2 : a = i ∨ a = "Plat" := by
        rcases not_and_or.mp hq with h | h
        · exact Or.inl (not_not.mp h)
        · exact Or.inr (not_not.mp h)
      rw [block_snd_nil r a i h2, List.nil_append,
        List.filter_cons_of_neg (by simpa using hq)]

lemma tdSumFrom_connections (names : List String) (f : Conn → ℚ) (i : String)
    (hnd : names.Nodup) (hi : i ∈ names) (hip : i ≠ "Plat") :
    tdSumFrom (connections names) f i
      = ((names.filter (fun d => ¬ i = d)).map (fun d => f (i, d))).sum := by
  rw [tdSumFrom, connections, product_filter_fst names i hip names hnd, if_pos hi,
    List.map_map]
  rfl

lemma tdSumTo_connections (names : List String) (f : Conn → ℚ) (i : String)
    (hnd : names.Nodup) (hi : i ∈ names) :
    tdSumTo (connections names) f i
      = ((names.filter (fun o => ¬ o = i ∧ ¬ o = "Plat")).map (fun o => f (o, i))).sum := by
  rw [tdSumTo, connections, product_filter_snd names i hnd hi names, List.map_map]
  rfl

/-- C1 amended: at every non-platform node of the offshore model, every
point satisfying the satisfiable constraint families has flow OUT of the
node equal to flow INTO the node plus the local production of 8 MW (the
code's `Flow` constraint orients conservation opposite to the spec):
the sum of `f (i, d)` over the other nodes `d` equals the sum of
`f (o, i)` over the nodes `o` distinct from `i` and 'Plat', plus 8. -/
theorem outflow_eq_inflow_plus_produced (names : List String) (dist : Conn → ℚ)
    (x f : Conn → ℚ) (hnd : names.Nodup) (h : offshoreFlowFeasible names dist x f) :
    ∀ i ∈ names, i ≠ "Plat" →
      ((names.filter (fun d => ¬ i = d)).map (fun d => f (i, d))).sum
        = ((names.filter (fun o => ¬ o = i ∧ ¬ o = "Plat")).map (fun o => f (o, i))).sum
            + produced := by
  obtain ⟨-, -, hflow, -, -⟩ := h
  intro i hi hip
  have hc := hflow i hi hip
  rw [tdSumFrom_connections names f i hnd hi hip, tdSumTo_connections names f i hnd hi] at hc
  exact hc

/-- C1 witness: the amended conservation law instantiated at a concrete
flow-feasible point of a two-node instance. -/
theorem outflow_eq_inflow_plus_produced_inst :
    (["T1", "Plat"].Nodup ∧ offshoreFlowFeasible ["T1", "Plat"] offDist offX offF) ∧
      ((["T1", "Plat"].filter (fun d => ¬ "T1" = d)).map (fun d => offF ("T1", d))).sum
        = ((["T1", "Plat"].filter (fun o => ¬ o = "T1" ∧ ¬ o = "Plat")).map
            (fun o => offF (o, "T1"))).sum + produced :=
  ⟨⟨by decide, offshore_point_flow_feasible⟩,
    outflow_eq_inflow_plus_produced ["T1", "Plat"] offDist offX offF (by decide)
      offshore_point_flow_feasible "T1" (by decide) (by decide)⟩

/-- The objective as the spec claims it: install times distance times
price_per_km, summed over candidate connections (stated from the spec's
words for comparison with `offshoreObjective`). -/
def claimedPricedObjective (names : List String) (dist : Conn → ℚ) (x : Conn → ℚ) : ℚ :=
  ((connections names).map (fun c => x c * (dist c * price_per_km))).sum

/-- The pricing property the spec asserts of the offshore objective. -/
def objectivePricingClaim : Prop :=
  ∀ (names : List String) (dist : Conn → ℚ) (x : Conn → ℚ),
    offshoreObjective names dist x = claimedPricedObjective names dist x

/-- C2 counterexample: on a two-node instance with one 5 km candidate
connection installed, the code's objective is 5 while the spec's priced
objective is 5000000: the script never multiplies distances by
`price_per_km`. -/
theorem objective_pricing_claim_false : ¬ objectivePricingClaim := by
  intro h
  have h1 := h ["T1", "Plat"] offDist offX
  have hconn : connections ["T1", "Plat"] = [("T1", "Plat")] := by decide
  rw [offshoreObjective, claimedPricedObjective, hconn] at h1
  simp only [List.map_cons, List.map_nil, List.sum_cons, List.sum_nil] at h1
  norm_num [offDist, offX, price_per_km] at h1

/-- C2 amended: the offshore objective equals the sum over candidate
connections of install variable times distance in km, with no price
factor applied. -/
theorem offshore_objective_unpriced (names : List String) (dist : Conn → ℚ)
    (x : Conn → ℚ) (hnd : names.Nodup) :
    offshoreObjective names dist x = ∑ c in (connections names).toFinset, x c * dist c := by
  have hc : (connections names).Nodup := List.Nodup.filter _ (hnd.product hnd)
  rw [offshoreObjective]
  exact (List.sum_toFinset _ hc).symm

/-- C2 witness: the unpriced objective identity at the concrete two-node
instance. -/
theorem offshore_objective_unpriced_inst :
    ["T1", "Plat"].Nodup ∧
      offshoreObjective ["T1", "Plat"] offDist offX
        = ∑ c in (connections ["T1", "Plat"]).toFinset, offX c * offDist c :=
  ⟨by decide, offshore_objective_unpriced ["T1", "Plat"] offDist offX (by decide)⟩

/-! ### Workforce scheduling model (src/workforce/workforce_scheduling.py) -/

/-- The fourteen shifts of the two-week planning horizon. -/
def shifts : List String :=
  ["Mon1", "Tue2", "Wed3", "Thu4", "Fri5", "Sat6", "Sun7",
   "Mon8", "Tue9", "Wed10", "Thu11", "Fri12", "Sat13", "Sun14"]

/-- Number of workers required by each shift. -/
def shiftRequirements : String → ℚ
  | "Mon1" => 3
  | "Tue2" => 2
  | "Wed3" => 4
  | "Thu4" => 4
  | "Fri5" => 5
  | "Sat6" => 6
  | "Sun7" => 5
  | "Mon8" => 2
  | "Tue9" => 2
  | "Wed10" => 3
  | "Thu11" => 4
  | "Fri12" => 6
  | "Sat13" => 7
  | "Sun14" => 5
  | _ => 0

/-- The seven employed workers. -/
def workers : List String := ["Amy", "Bob", "Cathy", "Dan", "Ed", "Fred", "Gu"]

/-- Amount each worker is paid to work one shift (part of the data; unused
by the model's constraints and objectives). -/
def pay : String → ℚ
  | "Amy" => 10
  | "Bob" => 12
  | "Cathy" => 10
  | "Dan" => 8
  | "Ed" => 8
  | "Fred" => 9
  | "Gu" => 11
  | _ => 0

/-- Worker availability: the (worker, shift) pairs on which the binary
assignment variables `y` are created. -/
def availability : List Conn :=
  [("Amy", "Tue2"), ("Amy", "Wed3"), ("Amy", "Fri5"), ("Amy", "Sun7"),
   ("Amy", "Tue9"), ("Amy", "Wed10"), ("Amy", "Thu11"), ("Amy", "Fri12"),
   ("Amy", "Sat13"), ("Amy", "Sun14"), ("Bob", "Mon1"), ("Bob", "Tue2"),
   ("Bob", "Fri5"), ("Bob", "Sat6"), ("Bob", "Mon8"), ("Bob", "Thu11"),
   ("Bob", "Sat13"), ("Cathy", "Wed3"), ("Cathy", "Thu4"), ("Cathy", "Fri5"),
   ("Cathy", "Sun7"), ("Cathy", "Mon8"), ("Cathy", "Tue9"), ("Cathy", "Wed10"),
   ("Cathy", "Thu11"), ("Cathy", "Fri12"), ("Cathy", "Sat13"),
   ("Cathy", "Sun14"), ("Dan", "Tue2"), ("Dan", "Wed3"), ("Dan", "Fri5"),
   ("Dan", "Sat6"), ("Dan", "Mon8"), ("Dan", "Tue9"), ("Dan", "Wed10"),
   ("Dan", "Thu11"), ("Dan", "Fri12"), ("Dan", "Sat13"), ("Dan", "Sun14"),
   ("Ed", "Mon1"), ("Ed", "Tue2"), ("Ed", "Wed3"), ("Ed", "Thu4"),
   ("Ed", "Fri5"), ("Ed", "Sun7"), ("Ed", "Mon8"), ("Ed", "Tue9"),
   ("Ed", "Thu11"), ("Ed", "Sat13"), ("Ed", "Sun14"), ("Fred", "Mon1"),
   ("Fred", "Tue2"), ("Fred", "Wed3"), ("Fred", "Sat6"), ("Fred", "Mon8"),
   ("Fred", "Tue9"), ("Fred", "Fri12"), ("Fred", "Sat13"), ("Fred", "Sun14"),
   ("Gu", "Mon1"), ("Gu", "Tue2"), ("Gu", "Wed3"), ("Gu", "Fri5"),
   ("Gu", "Sat6"), ("Gu", "Sun7"), ("Gu", "Mon8"), ("Gu", "Tue9"),
   ("Gu", "Wed10"), ("Gu", "Thu11"), ("Gu", "Fri12"), ("Gu", "Sat13"),
   ("Gu", "Sun14")]

/-- Value of the Gurobi general constraint `max_` over a list of values
(applied to the workload variables of the seven workers). -/
def qListMax : List ℚ → ℚ
  | [] => 0
  | [a] => a
  | a :: b :: t => max a (qListMax (b :: t))

/-- Value of the Gurobi general constraint `min_` over a list of values. -/
def qListMin : List ℚ → ℚ
  | [] => 0
  | [a] => a
  | a :: b :: t => min a (qListMin (b :: t))

/-- A feasible point of the workforce model: binary assignment variables
`y` on the availability pairs, nonnegative continuous `x`, `n`, `maxWork`
and `minWork` (default lower bound 0), the `JustGoToWork` family
`y.sum(star, s) + n[s] == shiftRequirements[s]`, the `Workers` family
`y.sum(w, star) == x[w]`, and the `maxconstr`/`minconstr` general
constraints tying `maxWork`/`minWork` to the workloads. -/
def wfFeasible (y : Conn → ℚ) (x n : String → ℚ) (maxW minW : ℚ) : Prop :=
  (∀ p ∈ availability, y p = 0 ∨ y p = 1) ∧
  (∀ w ∈ workers, 0 ≤ x w) ∧
  (∀ s ∈ shifts, 0 ≤ n s) ∧
  0 ≤ maxW ∧
  0 ≤ minW ∧
  (∀ s ∈ shifts, tdSumTo availability y s + n s = shiftRequirements s) ∧
  (∀ w ∈ workers, tdSumFrom availability y w = x w) ∧
  maxW = qListMax (workers.map x) ∧
  minW = qListMin (workers.map x)

/-- The first objective expression, `n.sum()`: total number of temporary
hires over all shifts. -/
def totalTemps (n : String → ℚ) : ℚ := (shifts.map n).sum

/-- Modelled from the gurobipy API semantics: both `setObjectiveN` calls
pass only an expression and an index (0 and 1), so both objectives keep
the default priority 0 and default weight 1, and Gurobi blends objectives
of equal priority into their weighted sum.  The model's effective single
objective is therefore the sum of the two expressions. -/
def blendedObjective (n : String → ℚ) (maxW minW : ℚ) : ℚ :=
  totalTemps n + (maxW - minW)

lemma sum_map_zero_fun (l : List Conn) : (l.map (fun _ : Conn => (0 : ℚ))).sum = 0 := by
  rw [List.sum_eq_zero]
  intro q hq
  obtain ⟨p, -, rfl⟩ := List.mem_map.mp hq
  rfl

/-- The all-zero assignment: no employed worker takes any shift. -/
def y0 : Conn → ℚ := fun _ => 0

/-- Workloads of the all-zero assignment. -/
def x0 : String → ℚ := fun _ => 0

/-- Temporary hires of the all-zero assignment: every shift is covered
entirely by temps. -/
def n0 : String → ℚ := shiftRequirements

lemma y0_feasible : wfFeasible y0 x0 n0 0 0 := by
  refine ⟨?_, ?_, ?_, le_refl 0, le_refl 0, ?_, ?_, ?_, ?_⟩
  · intro p _
    exact Or.inl rfl
  · intro w _
    exact le_refl 0
  · intro s hs
    simp +decide [shifts] at hs
    rcases hs with rfl | rfl | rfl | rfl | rfl | rfl | rfl | rfl | rfl | rfl | rfl | rfl |
      rfl | rfl <;> norm_num [n0, shiftRequirements]
  · intro s hs
    rw [tdSumTo, show List.map y0 = List.map (fun _ : Conn => (0 : ℚ)) from rfl,
      sum_map_zero_fun, zero_add]
    rfl
  · intro w _
    rw [tdSumFrom, show List.map y0 = List.map (fun _ : Conn => (0 : ℚ)) from rfl,
      sum_map_zero_fun]
    rfl
  · simp [workers, x0, qListMax]
  · simp [workers, x0, qListMin]

lemma binary_sum_eq_count (y : Conn → ℚ) :
    ∀ l : List Conn, (∀ p ∈ l, y p = 0 ∨ y p = 1) →
      (l.map y).sum = ((l.countP (fun p => decide (y p = 1)) : ℕ) : ℚ) := by
  intro l
  induction l with
  | nil => simp
  | cons p l ih =>
    intro h
    have hp := h p (List.mem_cons_self p l)
    have hrest := ih (fun q hq => h q (List.mem_cons_of_mem p hq))
    rw [List.map_cons, List.sum_cons, List.countP_cons, hrest]
    rcases hp with h0 | h1
    · have hne : ¬ y p = 1 := by rw [h0]; norm_num
      rw [h0]
      simp [hne]
    · rw [h1]
      simp
      ring

/-- C7: in every feasible point of the workforce model, for each shift the
number of available workers assigned to it plus the temporary hires for
that shift equals the shift's required headcount, and for each worker the
number of shifts assigned to them equals their workload variable. -/
theorem workforce_cover_and_workload (y : Conn → ℚ) (x n : String → ℚ)
    (maxW minW : ℚ) (h : wfFeasible y x n maxW minW) :
    (∀ s ∈ shifts,
        (((availability.filter (fun p => p.2 = s)).countP (fun p => decide (y p = 1)) : ℕ) : ℚ)
          + n s = shiftRequirements s) ∧
    (∀ w ∈ workers,
        (((availability.filter (fun p => p.1 = w)).countP (fun p => decide (y p = 1)) : ℕ) : ℚ)
          = x w) := by
  obtain ⟨hbin, -, -, -, -, hshift, hwork, -, -⟩ := h
  constructor
  · intro s hs
    have hsub : ∀ p ∈ availability.filter (fun p => p.2 = s), y p = 0 ∨ y p = 1 :=
      fun p hp => hbin p (List.mem_filter.mp hp).1
    have hc := hshift s hs
    rw [tdSumTo, binary_sum_eq_count y _ hsub] at hc
    exact hc
  · intro w hw
    have hsub : ∀ p ∈ availability.filter (fun p => p.1 = w), y p = 0 ∨ y p = 1 :=
      fun p hp => hbin p (List.mem_filter.mp hp).1
    have hc := hwork w hw
    rw [tdSumFrom, binary_sum_eq_count y _ hsub] at hc
    exact hc

/-- C7 witness: the cover and workload identities at the all-zero feasible
point. -/
theorem workforce_cover_and_workload_inst :
    wfFeasible y0 x0 n0 0 0 ∧
      ((∀ s ∈ shifts,
          (((availability.filter (fun p => p.2 = s)).countP
              (fun p => decide (y0 p = 1)) : ℕ) : ℚ) + n0 s = shiftRequirements s) ∧
        (∀ w ∈ workers,
          (((availability.filter (fun p => p.1 = w)).countP
              (fun p => decide (y0 p = 1)) : ℕ) : ℚ) = x0 w)) :=
  ⟨y0_feasible, workforce_cover_and_workload y0 x0 n0 0 0 y0_feasible⟩

lemma req_natural : ∀ s ∈ shifts, ∃ r : ℕ, shiftRequirements s = (r : ℚ) := by
  intro s hs
  simp +decide [shifts] at hs
  rcases hs with rfl | rfl | rfl | rfl | rfl | rfl | rfl | rfl | rfl | rfl | rfl | rfl |
    rfl | rfl
  · exact ⟨3, by norm_num [shiftRequirements]⟩
  · exact ⟨2, by norm_num [shiftRequirements]⟩
  · exact ⟨4, by norm_num [shiftRequirements]⟩
  · exact ⟨4, by norm_num [shiftRequirements]⟩
  · exact ⟨5, by norm_num [shiftRequirements]⟩
  · exact ⟨6, by norm_num [shiftRequirements]⟩
  · exact ⟨5, by norm_num [shiftRequirements]⟩
  · exact ⟨2, by norm_num [shiftRequirements]⟩
  · exact ⟨2, by norm_num [shiftRequirements]⟩
  · exact ⟨3, by norm_num [shiftRequirements]⟩
  · exact ⟨4, by norm_num [shiftRequirements]⟩
  · exact ⟨6, by norm_num [shiftRequirements]⟩
  · exact ⟨7, by norm_num [shiftRequirements]⟩
  · exact ⟨5, by norm_num [shiftRequirements]⟩

lemma wf_temps_natural (y : Conn → ℚ) (x n : String → ℚ) (maxW minW : ℚ)
    (h : wfFeasible y x n maxW minW) : ∀ s ∈ shifts, ∃ k : ℕ, n s = (k : ℚ) := by
  obtain ⟨hbin, -, hnn, -, -, hshift, -, -, -⟩ := h
  intro s hs
  have hsub : ∀ p ∈ availability.filter (fun p => p.2 = s), y p = 0 ∨ y p = 1 :=
    fun p hp => hbin p (List.mem_filter.mp hp).1
  have hc := hshift s hs
  rw [tdSumTo, binary_sum_eq_count y _ hsub] at hc
  obtain ⟨r, hr⟩ := req_natural s hs
  set m : ℕ := (availability.filter (fun p => p.2 = s)).countP (fun p => decide (y p = 1))
  have hns : n s = (r : ℚ) - (m : ℚ) := by
    rw [hr] at hc
    linarith
  have hmr : m ≤ r := by
    have h0 := hnn s hs
    rw [hns] at h0
    exact_mod_cast (by linarith : (m : ℚ) ≤ (r : ℚ))
  exact ⟨r - m, by rw [hns, Nat.cast_sub hmr]⟩

/-- The property the claim asserts: some feasible point of the workforce
model gives a fractional number of temporary hires to some shift. -/
def fractionalTempsClaim : Prop :=
  ∃ (y : Conn → ℚ) (x n : String → ℚ) (maxW minW : ℚ),
    wfFeasible y x n maxW minW ∧ ∃ s ∈ shifts, ∀ k : ℕ, n s ≠ (k : ℚ)

/-- C10 counterexample: no feasible point of the workforce model assigns a
fractional value to any temporary-hire variable, because the equality
constraints tie each `n[s]` to an integer requirement minus a sum of
binary variables. -/
theorem fractional_temps_claim_false : ¬ fractionalTempsClaim := by
  rintro ⟨y, x, n, maxW, minW, hfeas, s, hs, hk⟩
  obtain ⟨k, hk'⟩ := wf_temps_natural y x n maxW minW hfeas s hs
  exact hk k hk'

/-- C10 amended: the temporary-hire variables are declared continuous and
nonnegative with no integrality requirement, yet in every feasible point
each of them takes a nonnegative integer value. -/
theorem temps_continuous_but_integral (y : Conn → ℚ) (x n : String → ℚ)
    (maxW minW : ℚ) (h : wfFeasible y x n maxW minW) :
    ∀ s ∈ shifts, 0 ≤ n s ∧ ∃ k : ℕ, n s = (k : ℚ) := by
  intro s hs
  exact ⟨h.2.2.1 s hs, wf_temps_natural y x n maxW minW h s hs⟩

/-- C10 witness: integrality of the temp hires at the all-zero feasible
point, on the first shift. -/
theorem temps_continuous_but_integral_inst :
    wfFeasible y0 x0 n0 0 0 ∧ (0 ≤ n0 "Mon1" ∧ ∃ k : ℕ, n0 "Mon1" = (k : ℚ)) :=
  ⟨y0_feasible, temps_continuous_but_integral y0 x0 n0 0 0 y0_feasible "Mon1" (by decide)⟩

/-- Assignment A: Gu takes all thirteen available shifts and Cathy seven
of hers; nobody else works. -/
def assignedA : List Conn :=
  [("Gu", "Mon1"), ("Gu", "Tue2"), ("Gu", "Wed3"), ("Gu", "Fri5"),
   ("Gu", "Sat6"), ("Gu", "Sun7"), ("Gu", "Mon8"), ("Gu", "Tue9"),
   ("Gu", "Wed10"), ("Gu", "Thu11"), ("Gu", "Fri12"), ("Gu", "Sat13"),
   ("Gu", "Sun14"),
   ("Cathy", "Wed3"), ("Cathy", "Thu4"), ("Cathy", "Fri5"),
   ("Cathy", "Sun7"), ("Cathy", "Wed10"), ("Cathy", "Thu11"),
   ("Cathy", "Fri12")]

/-- The binary variables of assignment A. -/
def yA : Conn → ℚ := fun p => if p ∈ assignedA then 1 else 0

/-- Workloads of assignment A. -/
def xA : String → ℚ
  | "Gu" => 13
  | "Cathy" => 7
  | _ => 0

/-- Temporary hires of assignment A. -/
def nA : String → ℚ
  | "Mon1" => 2
  | "Tue2" => 1
  | "Wed3" => 2
  | "Thu4" => 3
  | "Fri5" => 3
  | "Sat6" => 5
  | "Sun7" => 3
  | "Mon8" => 1
  | "Tue9" => 1
  | "Wed10" => 1
  | "Thu11" => 2
  | "Fri12" => 4
  | "Sat13" => 6
  | "Sun14" => 4
  | _ => 0

/-- Assignment B: every worker takes exactly two of their available
shifts. -/
def assignedB : List Conn :=
  [("Amy", "Tue2"), ("Amy", "Wed3"), ("Bob", "Mon1"), ("Bob", "Fri5"),
   ("Cathy", "Thu4"), ("Cathy", "Sun7"), ("Dan", "Sat6"), ("Dan", "Mon8"),
   ("Ed", "Tue9"), ("Ed", "Thu11"), ("Fred", "Sat13"), ("Fred", "Sun14"),
   ("Gu", "Wed10"), ("Gu", "Fri12")]

/-- The binary variables of assignment B. -/
def yB : Conn → ℚ := fun p => if p ∈ assignedB then 1 else 0

/-- Workloads of assignment B. -/
def xB : String → ℚ := fun _ => 2

/-- Temporary hires of assignment B. -/
def nB : String → ℚ
  | "Mon1" => 2
  | "Tue2" => 1
  | "Wed3" => 3
  | "Thu4" => 3
  | "Fri5" => 4
  | "Sat6" => 5
  | "Sun7" => 4
  | "Mon8" => 1
  | "Tue9" => 1
  | "Wed10" => 2
  | "Thu11" => 3
  | "Fri12" => 5
  | "Sat13" => 6
  | "Sun14" => 4
  | _ => 0

lemma yA_feasible : wfFeasible yA xA nA 13 0 := by
  refine ⟨?_, ?_, ?_, by norm_num, le_refl 0, ?_, ?_, ?_, ?_⟩
  · intro p _
    by_cases hp : p ∈ assignedA
    · exact Or.inr (by simp [yA, hp])
    · exact Or.inl (by simp [yA, hp])
  · intro w hw
    simp +decide [workers] at hw
    rcases hw with rfl | rfl | rfl | rfl | rfl | rfl | rfl <;> decide
  · intro s hs
    simp +decide [shifts] at hs
    rcases hs with rfl | rfl | rfl | rfl | rfl | rfl | rfl | rfl | rfl | rfl | rfl | rfl |
      rfl | rfl <;> norm_num [nA]
  · intro s hs
    simp +decide [shifts] at hs
    rcases hs with rfl | rfl | rfl | rfl | rfl | rfl | rfl | rfl | rfl | rfl | rfl | rfl |
      rfl | rfl <;>
      (simp +decide [tdSumTo, availability, yA, assignedA, nA, shiftRequirements]
       ; norm_num)
  · intro w hw
    simp +decide [workers] at hw
    rcases hw with rfl | rfl | rfl | rfl | rfl | rfl | rfl <;>
      (simp +decide [tdSumFrom, availability, yA, assignedA, xA]
       <;> norm_num)
  · simp +decide [workers, xA, qListMax]
  · simp +decide [workers, xA, qListMin]

lemma yB_feasible : wfFeasible yB xB nB 2 2 := by
  refine ⟨?_, ?_, ?_, by norm_num, by norm_num, ?_, ?_, ?_, ?_⟩
  · intro p _
    by_cases hp : p ∈ assignedB
    · exact Or.inr (by simp [yB, hp])
    · exact Or.inl (by simp [yB, hp])
  · intro w _
    norm_num [xB]
  · intro s hs
    simp +decide [shifts] at hs
    rcases hs with rfl | rfl | rfl | rfl | rfl | rfl | rfl | rfl | rfl | rfl | rfl | rfl |
      rfl | rfl <;> norm_num [nB]
  · intro s hs
    simp +decide [shifts] at hs
    rcases hs with rfl | rfl | rfl | rfl | rfl | rfl | rfl | rfl | rfl | rfl | rfl | rfl |
      rfl | rfl <;>
      (simp +decide [tdSumTo, availability, yB, assignedB, nB, shiftRequirements]
       ; norm_num)
  · intro w hw
    simp +decide [workers] at hw
    rcases hw with rfl | rfl | rfl | rfl | rfl | rfl | rfl <;>
      (simp +decide [tdSumFrom, availability, yB, assignedB, xB]
       ; norm_num)
  · simp +decide [workers, xB, qListMax]
  · simp +decide [workers, xB, qListMin]

/-- C3: the two `setObjectiveN` calls pass objective indices, not
priorities, so both objectives sit at the default priority 0 and Gurobi
blends them into an equal-weight sum instead of optimizing them in strict
priority order.  Witness: two feasible points of the model, A and B, such
that A hires strictly fewer temps (38 against 44), yet the blended
objective the code builds ranks B strictly better (44 against 51), so the
solver prefers B and the total number of temporary hires is not minimized
first. -/
theorem workforce_objectives_blended_not_lex :
    wfFeasible yA xA nA 13 0 ∧ wfFeasible yB xB nB 2 2 ∧
      totalTemps nA < totalTemps nB ∧
      blendedObjective nB 2 2 < blendedObjective nA 13 0 := by
  refine ⟨yA_feasible, yB_feasible, ?_, ?_⟩
  · simp +decide [totalTemps, shifts, nA, nB]
    norm_num
  · simp +decide [blendedObjective, totalTemps, shifts, nA, nB]
    norm_num

/-! ### Geometric crossing filter (src/offshore/offshore.py, check_if_crossing)

The script builds shapely `LineString`s from the Easting/Northing
coordinates of the four named nodes and returns `line1.crosses(line2)`
unless the two segments share an endpoint name.  Coordinates are embedded
as rational pairs. -/

/-- Twice the signed area of the triangle (p, q, r): zero exactly when the
three points are collinear. -/
def orient (p q r : ℚ × ℚ) : ℚ :=
  (q.1 - p.1) * (r.2 - p.2) - (q.2 - p.2) * (r.1 - p.1)

/-- Modelled from the shapely library: `LineString.crosses` on two straight
segments holds iff the interiors of the segments meet in a point (DE-9IM:
the interiors intersect and the intersection has dimension 0), which for
segments is the strict two-sided orientation test below; touching at an
endpoint or collinear overlap is not a crossing. -/
def segCrosses (p1 q1 p2 q2 : ℚ × ℚ) : Bool :=
  decide (orient p1 q1 p2 * orient p1 q1 q2 < 0 ∧
    orient p2 q2 p1 * orient p2 q2 q1 < 0)

/-- The function `check_if_crossing(df, o1, d1, o2, d2)`: `False` when the
four endpoint names share a member, otherwise whether the two coordinate
segments cross. -/
def check_if_crossing (pos : String → ℚ × ℚ) (o1 d1 o2 d2 : String) : Bool :=
  if o1 = o2 ∨ o1 = d2 ∨ d1 = o2 ∨ d1 = d2 then false
  else segCrosses (pos o1) (pos d1) (pos o2) (pos d2)

/-- The point of the segment from `p` to `q` at parameter `t`. -/
def segPoint (p q : ℚ × ℚ) (t : ℚ) : ℚ × ℚ :=
  (p.1 + t * (q.1 - p.1), p.2 + t * (q.2 - p.2))

/-- Membership of `r` in the closed segment from `p` to `q`. -/
def onSegment (p q r : ℚ × ℚ) : Prop :=
  ∃ t : ℚ, 0 ≤ t ∧ t ≤ 1 ∧ r = segPoint p q t

/-- The two closed segments have a common point (the spec's notion of
geometric intersection). -/
def segmentsIntersect (p1 q1 p2 q2 : ℚ × ℚ) : Prop :=
  ∃ r : ℚ × ℚ, onSegment p1 q1 r ∧ onSegment p2 q2 r

/-- Membership of `r` in the open segment strictly between `p` and `q`. -/
def interiorPoint (p q r : ℚ × ℚ) : Prop :=
  ∃ t : ℚ, 0 < t ∧ t < 1 ∧ r = segPoint p q t

/-- A proper crossing: the segments meet at a point interior to both and
the endpoints of the second are not both collinear with the first. -/
def properCrossing (p1 q1 p2 q2 : ℚ × ℚ) : Prop :=
  (∃ r : ℚ × ℚ, interiorPoint p1 q1 r ∧ interiorPoint p2 q2 r) ∧
    ¬(orient p1 q1 p2 = 0 ∧ orient p1 q1 q2 = 0)

lemma orient_segPoint (p q A B : ℚ × ℚ) (s : ℚ) :
    orient p q (segPoint A B s) = (1 - s) * orient p q A + s * orient p q B := by
  simp only [orient, segPoint]
  ring

lemma orient_diff_anti (p1 q1 p2 q2 : ℚ × ℚ) :
    orient p1 q1 p2 - orient p1 q1 q2 = -(orient p2 q2 p1 - orient p2 q2 q1) := by
  simp only [orient]
  ring

lemma orient_cramer_x (p1 q1 p2 q2 : ℚ × ℚ) :
    (orient p2 q2 p1 - orient p2 q2 q1) * p1.1 + orient p2 q2 p1 * (q1.1 - p1.1)
      = (orient p2 q2 p1 - orient p2 q2 q1) * p2.1 - orient p1 q1 p2 * (q2.1 - p2.1) := by
  simp only [orient]
  ring

lemma orient_cramer_y (p1 q1 p2 q2 : ℚ × ℚ) :
    (orient p2 q2 p1 - orient p2 q2 q1) * p1.2 + orient p2 q2 p1 * (q1.2 - p1.2)
      = (orient p2 q2 p1 - orient p2 q2 q1) * p2.2 - orient p1 q1 p2 * (q2.2 - p2.2) := by
  simp only [orient]
  ring

lemma orient_comb_a_x (p1 q1 p2 q2 : ℚ × ℚ) :
    orient p1 q1 p2 * (q2.1 - p2.1)
      = (p1.1 - p2.1) * orient p2 q2 q1 - (q1.1 - p2.1) * orient p2 q2 p1 := by
  simp only [orient]
  ring

lemma orient_comb_a_y (p1 q1 p2 q2 : ℚ × ℚ) :
    orient p1 q1 p2 * (q2.2 - p2.2)
      = (p1.2 - p2.2) * orient p2 q2 q1 - (q1.2 - p2.2) * orient p2 q2 p1 := by
  simp only [orient]
  ring

lemma orient_comb_b_x (p1 q1 p2 q2 : ℚ × ℚ) :
    orient p1 q1 q2 * (q2.1 - p2.1)
      = (orient p2 q2 p1 - orient p2 q2 q1) * (q2.1 - p2.1)
        - (q1.1 - p2.1) * orient p2 q2 p1 + (p1.1 - p2.1) * orient p2 q2 q1 := by
  simp only [orient]
  ring

lemma orient_comb_b_y (p1 q1 p2 q2 : ℚ × ℚ) :
    orient p1 q1 q2 * (q2.2 - p2.2)
      = (orient p2 q2 p1 - orient p2 q2 q1) * (q2.2 - p2.2)
        - (q1.2 - p2.2) * orient p2 q2 p1 + (p1.2 - p2.2) * orient p2 q2 q1 := by
  simp only [orient]
  ring

lemma param_strict {a b : ℚ} (h : a * b < 0) : 0 < a / (a - b) ∧ a / (a - b) < 1 := by
  rcases lt_trichotomy a 0 with ha | ha | ha
  · have hb : 0 < b := by nlinarith
    have heq : a / (a - b) = (-a) / (b - a) := by
      rw [← neg_div_neg_eq, neg_sub]
    rw [heq]
    constructor
    · exact div_pos (by linarith) (by linarith)
    · rw [div_lt_one (by linarith)]
      linarith
  · exfalso
    rw [ha, zero_mul] at h
    exact absurd h (lt_irrefl 0)
  · have hb : b < 0 := by nlinarith
    constructor
    · exact div_pos ha (by linarith)
    · rw [div_lt_one (by linarith)]
      linarith

lemma mul_neg_of_convex_comb {a b s : ℚ} (hs0 : 0 < s) (hs1 : s < 1)
    (hsum : (1 - s) * a + s * b = 0) (hne : ¬(a = 0 ∧ b = 0)) : a * b < 0 := by
  rcases lt_trichotomy a 0 with ha | ha | ha
  · have hb : 0 < b := by nlinarith
    exact mul_neg_of_neg_of_pos ha hb
  · exfalso
    apply hne
    refine ⟨ha, ?_⟩
    rw [ha, mul_zero, zero_add] at hsum
    rcases mul_eq_zero.mp hsum with h | h
    · exact absurd h (ne_of_gt hs0)
    · exact h
  · have hb : b < 0 := by nlinarith
    exact mul_neg_of_pos_of_neg ha hb

lemma proper_of_signs {p1 q1 p2 q2 : ℚ × ℚ}
    (hab : orient p1 q1 p2 * orient p1 q1 q2 < 0)
    (hcd : orient p2 q2 p1 * orient p2 q2 q1 < 0) :
    properCrossing p1 q1 p2 q2 := by
  have hDcd : orient p2 q2 p1 - orient p2 q2 q1 ≠ 0 := by
    intro he
    have hd : orient p2 q2 q1 = orient p2 q2 p1 := by linarith
    rw [hd] at hcd
    exact absurd hcd (not_lt.mpr (mul_self_nonneg _))
  obtain ⟨hu0, hu1⟩ := param_strict hab
  obtain ⟨ht0, ht1⟩ := param_strict hcd
  have hanti := orient_diff_anti p1 q1 p2 q2
  refine ⟨⟨segPoint p2 q2 (orient p1 q1 p2 / (orient p1 q1 p2 - orient p1 q1 q2)),
    ⟨orient p2 q2 p1 / (orient p2 q2 p1 - orient p2 q2 q1), ht0, ht1, ?_⟩,
    ⟨_, hu0, hu1, rfl⟩⟩, ?_⟩
  · have hx := orient_cramer_x p1 q1 p2 q2
    have hy := orient_cramer_y p1 q1 p2 q2
    rw [Prod.ext_iff]
    constructor
    · simp only [segPoint]
      rw [hanti, div_neg]
      field_simp
      linarith [hx]
    · simp only [segPoint]
      rw [hanti, div_neg]
      field_simp
      linarith [hy]
  · rintro ⟨h1, h2⟩
    rw [h1, h2, mul_zero] at hab
    exact absurd hab (lt_irrefl 0)

lemma signs_of_proper {p1 q1 p2 q2 : ℚ × ℚ} (h : properCrossing p1 q1 p2 q2) :
    orient p1 q1 p2 * orient p1 q1 q2 < 0 ∧
      orient p2 q2 p1 * orient p2 q2 q1 < 0 := by
  obtain ⟨⟨r, ⟨t, ht0, ht1, hrt⟩, ⟨u, hu0, hu1, hru⟩⟩, hnc⟩ := h
  have hline1 : orient p1 q1 r = 0 := by
    rw [hrt, orient_segPoint]
    have e1 : orient p1 q1 p1 = 0 := by simp [orient]
    have e2 : orient p1 q1 q1 = 0 := by simp [orient]; ring
    rw [e1, e2]
    ring
  have hline2 : orient p2 q2 r = 0 := by
    rw [hru, orient_segPoint]
    have e1 : orient p2 q2 p2 = 0 := by simp [orient]
    have e2 : orient p2 q2 q2 = 0 := by simp [orient]; ring
    rw [e1, e2]
    ring
  have h1 : (1 - u) * orient p1 q1 p2 + u * orient p1 q1 q2 = 0 := by
    rw [← orient_segPoint, ← hru]
    exact hline1
  have h2 : (1 - t) * orient p2 q2 p1 + t * orient p2 q2 q1 = 0 := by
    rw [← orient_segPoint, ← hrt]
    exact hline2
  have hab : orient p1 q1 p2 * orient p1 q1 q2 < 0 :=
    mul_neg_of_convex_comb hu0 hu1 h1 hnc
  have hncd : ¬(orient p2 q2 p1 = 0 ∧ orient p2 q2 q1 = 0) := by
    rintro ⟨hc0, hd0⟩
    apply hnc
    by_cases hpq : p2 = q2
    · have hr2 : r = p2 := by
        rw [hru, hpq]
        simp [segPoint, Prod.ext_iff]
      have ha0 : orient p1 q1 p2 = 0 := by
        rw [← hr2]
        exact hline1
      have hb0 : orient p1 q1 q2 = 0 := by
        rw [← hpq]
        exact ha0
      exact ⟨ha0, hb0⟩
    · have hE : ¬(q2.1 - p2.1 = 0 ∧ q2.2 - p2.2 = 0) := by
        rintro ⟨hex, hey⟩
        exact hpq (Prod.ext (by linarith) (by linarith))
      have hax := orient_comb_a_x p1 q1 p2 q2
      have hay := orient_comb_a_y p1 q1 p2 q2
      have hbx := orient_comb_b_x p1 q1 p2 q2
      have hby := orient_comb_b_y p1 q1 p2 q2
      rw [hc0, hd0] at hax hay hbx hby
      have hax0 : orient p1 q1 p2 * (q2.1 - p2.1) = 0 := by rw [hax]; ring
      have hay0 : orient p1 q1 p2 * (q2.2 - p2.2) = 0 := by rw [hay]; ring
      have hbx0 : orient p1 q1 q2 * (q2.1 - p2.1) = 0 := by rw [hbx]; ring
      have hby0 : orient p1 q1 q2 * (q2.2 - p2.2) = 0 := by rw [hby]; ring
      constructor
      · rcases mul_eq_zero.mp hax0 with h | h
        · exact h
        · rcases mul_eq_zero.mp hay0 with h2 | h2
          · exact h2
          · exact absurd ⟨h, h2⟩ hE
      · rcases mul_eq_zero.mp hbx0 with h | h
        · exact h
        · rcases mul_eq_zero.mp hby0 with h2 | h2
          · exact h2
          · exact absurd ⟨h, h2⟩ hE
  have hcd : orient p2 q2 p1 * orient p2 q2 q1 < 0 :=
    mul_neg_of_convex_comb ht0 ht1 h2 hncd
  exact ⟨hab, hcd⟩

lemma segCrosses_iff_proper (p1 q1 p2 q2 : ℚ × ℚ) :
    segCrosses p1 q1 p2 q2 = true ↔ properCrossing p1 q1 p2 q2 := by
  rw [segCrosses, decide_eq_true_eq]
  exact ⟨fun h => proper_of_signs h.1 h.2, signs_of_proper⟩

/-- C9 amended: `check_if_crossing` returns True iff no endpoint name is
shared and the two coordinate segments properly cross: they meet at a
point interior to both and are not collinear.  Intersections that merely
touch an endpoint, and collinear overlaps, return False: the code tests
shapely's `crosses`, not plain intersection. -/
theorem check_if_crossing_iff_proper (pos : String → ℚ × ℚ) (o1 d1 o2 d2 : String) :
    check_if_crossing pos o1 d1 o2 d2 = true ↔
      (¬(o1 = o2 ∨ o1 = d2 ∨ d1 = o2 ∨ d1 = d2) ∧
        properCrossing (pos o1) (pos d1) (pos o2) (pos d2)) := by
  rw [check_if_crossing]
  by_cases h : o1 = o2 ∨ o1 = d2 ∨ d1 = o2 ∨ d1 = d2
  · rw [if_pos h]
    simp [h]
  · rw [if_neg h, segCrosses_iff_proper]
    simp [h]

/-- Coordinates of a concrete proper crossing: the diagonals of the unit
square scaled by two. -/
def posW : String → ℚ × ℚ
  | "A" => (0, 0)
  | "B" => (2, 2)
  | "C" => (0, 2)
  | "D" => (2, 0)
  | _ => (0, 0)

/-- C9 witness: the characterization evaluated at a concrete instance in
which the two segments properly cross at (1, 1). -/
theorem check_if_crossing_iff_proper_inst :
    check_if_crossing posW "A" "B" "C" "D" = true :=
  (check_if_crossing_iff_proper posW "A" "B" "C" "D").mpr
    ⟨by decide,
      ⟨⟨(1, 1),
        ⟨1/2, by norm_num, by norm_num, by norm_num [posW, segPoint, Prod.ext_iff]⟩,
        ⟨1/2, by norm_num, by norm_num, by norm_num [posW, segPoint, Prod.ext_iff]⟩⟩,
        by norm_num [orient, posW]⟩⟩

/-- The property the claim asserts of `check_if_crossing`: that apart from
the shared-name exclusion it decides geometric intersection of the two
segments. -/
def crossingClaim : Prop :=
  ∀ (pos : String → ℚ × ℚ) (o1 d1 o2 d2 : String),
    check_if_crossing pos o1 d1 o2 d2 = true ↔
      (¬(o1 = o2 ∨ o1 = d2 ∨ d1 = o2 ∨ d1 = d2) ∧
        segmentsIntersect (pos o1) (pos d1) (pos o2) (pos d2))

/-- Coordinates on which crossing and intersection disagree: segment CD
touches segment AB at (1, 0), an endpoint of CD interior to AB. -/
def posT : String → ℚ × ℚ
  | "A" => (0, 0)
  | "B" => (2, 0)
  | "C" => (1, 0)
  | "D" => (1, 1)
  | _ => (0, 0)

/-- C9 counterexample: with the four distinct names A(0,0), B(2,0),
C(1,0), D(1,1), the segments intersect at (1, 0), yet the function
returns False, so it does not decide plain geometric intersection. -/
theorem crossing_claim_false : ¬ crossingClaim := by
  intro h
  have h1 := (h posT "A" "B" "C" "D").mpr
    ⟨by decide,
      ⟨(1, 0),
        ⟨1/2, by norm_num, by norm_num, by norm_num [posT, segPoint, Prod.ext_iff]⟩,
        ⟨0, le_refl 0, by norm_num, by norm_num [posT, segPoint, Prod.ext_iff]⟩⟩⟩
  rw [check_if_crossing, if_neg (by decide), segCrosses, decide_eq_true_eq] at h1
  norm_num [orient, posT] at h1

end AMLC
